import Mathlib

/-!
Verification of the temporal document reconstruction engine of
takker99/scrapbox-history-slider.

The heart of the repository is `makeSnapshots` (src/convert.ts): starting from the
current lines of a page and the commit log ordered newest-first, it rebuilds the
line sequence at every commit timestamp by undoing commits backwards.  The
JavaScript code relies on object aliasing: the emitted snapshots hold references
to the very same line objects as the working sequence, and corrections discovered
further back in time are applied by mutating those shared objects in place.

To make the aliasing explicit we embed the heap: line objects live in an
append-only-except-for-mutation `store : List BaseLine`, and a JavaScript object
reference becomes an index (`Nat`) into that store.  The working sequence and each
emitted snapshot are lists of such references; in-place mutation is `modifyRef`,
allocation of a fresh object is an append.  The returned map resolves every
reference through the final store, exactly as reading `.text` etc. from the
returned JavaScript `Map` observes the final mutated objects.
-/

namespace ScrapboxHistorySlider

/-- A line of a Scrapbox page (`BaseLine` of `deps/scrapbox.ts`):
identity, text, author, creation and last-update timestamps. -/
structure BaseLine where
  id : String
  text : String
  userId : String
  created : Int
  updated : Int
deriving DecidableEq, Repr

/-- One entry of `Commit.changes` (`Change` of `deps/scrapbox.ts`), restricted to the
three variants that both `makeSnapshots` (src/convert.ts) and `convert`
(the per-line history builder) recognise: `_insert`, `_update`, `_delete`.
Any other variant is skipped by both functions, so it is omitted from the model.
- `insert parent lineId text` embeds `{ _insert: parent, lines: { id, text } }`
  (`parent` is the id of the line inserted before, or the sentinel `"_end"`);
- `update lineId text origText` embeds `{ _update: lineId, lines: { text, origText } }`;
- `delete lineId` embeds `{ _delete: lineId }`. -/
inductive Change where
  | insert (parent : String) (lineId : String) (text : String)
  | update (lineId : String) (text : String) (origText : String)
  | delete (lineId : String)
deriving DecidableEq, Repr

/-- A commit (`Commit` of `deps/scrapbox.ts`): its timestamp `created`, its author
`userId`, and the ordered list of changes applied left-to-right at that timestamp.
The remaining fields of the source type (`id`, `parentId`, `pageId`, `kind`) are
never read by the code under verification. -/
structure Commit where
  created : Int
  userId : String
  changes : List Change
deriving DecidableEq, Repr

/-- Default used to totalise reads of the line store.  Every reference produced
during a run of `makeSnapshots` stays in bounds, so this value is never observed. -/
def dummyLine : BaseLine := ⟨"", "", "", 0, 0⟩

/-- Dereference a line object: read the line stored at reference `r`. -/
def resolve (store : List BaseLine) (r : Nat) : BaseLine :=
  store.getD r dummyLine

/-- Mutate the line object at reference `r` in place. -/
def modifyRef (store : List BaseLine) (r : Nat) (f : BaseLine → BaseLine) : List BaseLine :=
  store.set r (f (resolve store r))

/-- `Map.set` of a JavaScript `Map`, on the model of a map as an association list in
key-insertion order: replace the value of an existing key in place, else append. -/
def mapSet {α : Type} : List (Int × α) → Int → α → List (Int × α)
  | [], k, v => [(k, v)]
  | (k0, v0) :: rest, k, v =>
      if k0 = k then (k, v) :: rest else (k0, v0) :: mapSet rest k v

/-- `Map.get` of a JavaScript `Map`. -/
def mapGet {α : Type} : List (Int × α) → Int → Option α
  | [], _ => none
  | (k0, v0) :: rest, k => if k0 = k then some v0 else mapGet rest k

/-- The reconstruction state of `makeSnapshots`:
the heap of line objects, the working sequence `current` (`currentLines` in the
source) and the emitted snapshots, all holding references into `store`. -/
structure St where
  store : List BaseLine
  current : List Nat
  snapshots : List (Int × List Nat)
deriving Repr

/-- One iteration of the loop `for (const lines of snapshots.values())` inside the
insert-restoration branch of `makeSnapshots` (src/convert.ts:43-47): in the
snapshot `entry`, the first line whose id is `lineId` gets its `created` field
set to `t`, by in-place mutation. -/
def patchCreatedStep (t : Int) (lineId : String) (s : List BaseLine)
    (entry : Int × List Nat) : List BaseLine :=
  match entry.2.find? (fun r2 => (resolve s r2).id == lineId) with
  | some r2 => modifyRef s r2 (fun l => { l with created := t })
  | none => s

/-- The whole `for (const lines of snapshots.values())` loop of the
insert-restoration branch (src/convert.ts:43-47), over the emitted snapshots in
insertion order. -/
def patchCreated (t : Int) (lineId : String) (snaps : List (Int × List Nat))
    (s0 : List BaseLine) : List BaseLine :=
  snaps.foldl (patchCreatedStep t lineId) s0

/-- The store produced by the restoration branch of the `"_insert"` block
(src/convert.ts:40-51): the placeholder at reference `r` gets the insert's text,
the `patchCreated` sweep fixes the `created` fields across the snapshots, and
finally the placeholder's `updated`/`userId` are set from the commit. -/
def restoreStore (commit : Commit) (st : St) (lineId text : String) (r : Nat) :
    List BaseLine :=
  modifyRef
    (patchCreated commit.created lineId st.snapshots
      (modifyRef st.store r (fun l => { l with text := text })))
    r
    (fun l => { l with updated := commit.created, userId := commit.userId })

/-- The `"_insert" in change` block of `makeSnapshots` (src/convert.ts:30-58):
find the first working line with the inserted id; if it is a placeholder
(text `"-1"`), restore it in place — text from the change, then the
`patchCreated` sweep over all snapshots, then `updated`/`userId` from the
commit — and keep it in the working sequence (`wasRestored` suppresses the
removal); otherwise remove every working line with that id. -/
def undoInsert (commit : Commit) (st : St) (lineId text : String) : St :=
  match st.current.find? (fun r => (resolve st.store r).id == lineId) with
  | some r =>
      if (resolve st.store r).text == "-1" then
        let store1 := modifyRef st.store r (fun l => { l with text := text })
        let store2 := patchCreated commit.created lineId st.snapshots store1
        let store3 := modifyRef store2 r
          (fun l => { l with updated := commit.created, userId := commit.userId })
        { st with store := store3 }
      else
        { st with current :=
            st.current.filter (fun r2 => (resolve st.store r2).id != lineId) }
  | none =>
      { st with current :=
          st.current.filter (fun r2 => (resolve st.store r2).id != lineId) }

/-- The `"_update" in change` block of `makeSnapshots` (src/convert.ts:59-81):
locate the line by id; an absent id is a no-op; a placeholder is restored in
place with the change's *new* text and the commit's metadata; a non-placeholder
is replaced by a freshly allocated object carrying `origText` and the dummy
`updated` timestamp `-1`. -/
def undoUpdate (commit : Commit) (st : St) (lineId text origText : String) : St :=
  match st.current.findIdx? (fun r => (resolve st.store r).id == lineId) with
  | some i =>
      let r := st.current.getD i 0
      let l := resolve st.store r
      if l.text == "-1" then
        let restore := fun l0 => { l0 with
          text := text, updated := commit.created, userId := commit.userId }
        { st with store := modifyRef st.store r restore }
      else
        { st with
          store := st.store ++ [{ l with text := origText, updated := -1 }],
          current := st.current.set i st.store.length }
  | none => st

/-- The `"_delete" in change` block of `makeSnapshots` (src/convert.ts:82-93):
always append a fresh placeholder (text `"-1"`, userId `"-1"`, created/updated
`-1`) at the end of the working sequence. -/
def undoDelete (st : St) (lineId : String) : St :=
  { st with
    store := st.store ++ [⟨lineId, "-1", "-1", -1, -1⟩],
    current := st.current ++ [st.store.length] }

/-- Undoing one change: the body of the inner `for (const change of commit.changes)`
loop of `makeSnapshots` (src/convert.ts:29-94), dispatching on the variant tag
exactly as the `"_insert" in change` / `"_update" in change` / `"_delete" in change`
chain does. -/
def processChange (commit : Commit) (st : St) (ch : Change) : St :=
  match ch with
  | .insert _parent lineId text => undoInsert commit st lineId text
  | .update lineId text origText => undoUpdate commit st lineId text origText
  | .delete lineId => undoDelete st lineId

/-- Processing one commit (the body of the outer loop of `makeSnapshots`,
src/convert.ts:24-95): first emit the snapshot for the commit's timestamp (a
shallow copy — a copy of the list of references, sharing the line objects), then
undo the commit's changes in list order. -/
def processCommit (st : St) (commit : Commit) : St :=
  let st1 := { st with snapshots := mapSet st.snapshots commit.created st.current }
  commit.changes.foldl (processChange commit) st1

/-- The initial state of a run: the store holds exactly the caller-supplied lines,
the working sequence references them in order, no snapshot emitted yet. -/
def initSt (lines : List BaseLine) : St :=
  ⟨lines, List.range lines.length, []⟩

/-- The final state of the backward sweep of `makeSnapshots`. -/
def runSnapshots (lines : List BaseLine) (commits : List Commit) : St :=
  commits.foldl processCommit (initSt lines)

/-- `makeSnapshots` (src/convert.ts:10-98): the returned map, with every line
reference resolved through the final store — reading a line from the returned
JavaScript `Map` observes the final state of the shared line objects. -/
def makeSnapshots (lines : List BaseLine) (commits : List Commit) :
    List (Int × List BaseLine) :=
  if commits.isEmpty then []
  else
    let st := runSnapshots lines commits
    st.snapshots.map (fun e => (e.1, e.2.map (resolve st.store)))

/-- Modelled from the spec: "Undo operations in reverse order (the operations
inside one commit were applied left-to-right originally, so undoing must walk
them right-to-left)".  The same reverse replay as `processCommit`, except the
commit's change list is undone right-to-left.  Used only to compare the code's
actual left-to-right processing against the spec's claimed order. -/
def processCommitRevOrder (st : St) (commit : Commit) : St :=
  let st1 := { st with snapshots := mapSet st.snapshots commit.created st.current }
  commit.changes.reverse.foldl (processChange commit) st1

/-- Modelled from the spec: `makeSnapshots` as the spec describes it, undoing each
commit's operations right-to-left (see `processCommitRevOrder`). -/
def makeSnapshotsRevOrder (lines : List BaseLine) (commits : List Commit) :
    List (Int × List BaseLine) :=
  if commits.isEmpty then []
  else
    let st := commits.foldl processCommitRevOrder (initSt lines)
    st.snapshots.map (fun e => (e.1, e.2.map (resolve st.store)))

/-! ### Instrumented replay for the id-uniqueness analysis

`deleteClash` replays the exact same sweep (reusing `processChange`) and records
whether some `_delete` was undone while a line with the deleted id was still in
the working sequence — the one situation in which `makeSnapshots` appends a
placeholder next to an existing line with the same id. -/

/-- `true` iff undoing `ch` from state `st` appends a placeholder whose id is
already present in the working sequence (only a `_delete` can do so, because the
reverse of a delete pushes its placeholder without looking for the id first). -/
def changeClash (st : St) (ch : Change) : Bool :=
  match ch with
  | .delete lineId => st.current.any (fun r => (resolve st.store r).id == lineId)
  | _ => false

/-- One step of the instrumented replay: the state evolves by `processChange`,
and the flag records whether a clash (see `changeClash`) has occurred. -/
def stepChecked (commit : Commit) (p : St × Bool) (ch : Change) : St × Bool :=
  (processChange commit p.1 ch, p.2 || changeClash p.1 ch)

/-- One commit of the instrumented replay (same sweep as `processCommit`). -/
def processCommitChecked (p : St × Bool) (commit : Commit) : St × Bool :=
  let p1 : St × Bool :=
    ({ p.1 with snapshots := mapSet p.1.snapshots commit.created p.1.current }, p.2)
  commit.changes.foldl (stepChecked commit) p1

/-- `true` iff during the sweep of `makeSnapshots lines commits` some `_delete`
is undone while its line id is still present in the working sequence. -/
def deleteClash (lines : List BaseLine) (commits : List Commit) : Bool :=
  (commits.foldl processCommitChecked (initSt lines, false)).2

/-! ### The per-line history builder `convert` and its timestamp range

`convert` (the per-line ordered-history builder) flattens the commit log into
per-change records and derives `range`, the list of timestamps driving the
slider: `[...new Set(changes.map(({ created }) => created))].sort()`.
JavaScript `Array.prototype.sort` without a comparator is a *stable* sort that
compares elements as strings, code unit by code unit; we embed it as a stable
insertion sort under that comparison (`jsDefaultLe`), which produces the same
list as any stable sort consistent with the same comparator. -/

/-- Lexicographic comparison of two code-unit sequences, as JavaScript compares
strings: shorter prefix first, else first differing code unit decides. -/
def lexLe : List Nat → List Nat → Bool
  | [], _ => true
  | _ :: _, [] => false
  | a :: as, b :: bs => if a < b then true else if b < a then false else lexLe as bs

/-- The code units of `String(n)` for an integer `n` (decimal notation; all
characters are ASCII, so code units and code points agree). -/
def jsStrCode (n : Int) : List Nat :=
  (toString n).data.map Char.toNat

/-- The default comparison used by JavaScript `Array.prototype.sort`: compare the
string representations of the two elements. -/
def jsDefaultLe (a b : Int) : Bool :=
  lexLe (jsStrCode a) (jsStrCode b)

/-- Walk a list keeping every value not seen before (`seen` collects the values
already kept). -/
def jsSetDedupAux (seen : List Int) : List Int → List Int
  | [] => []
  | a :: l => if a ∈ seen then jsSetDedupAux seen l else a :: jsSetDedupAux (a :: seen) l

/-- `[...new Set(l)]`: deduplication keeping the first occurrence of each value,
in insertion order, as a JavaScript `Set` iterates. -/
def jsSetDedup (l : List Int) : List Int :=
  jsSetDedupAux [] l

/-- The tag of a flattened change record (`makeChangeInfo` in the source). -/
inductive ChangeKind where
  | insert
  | update
  | delete
deriving DecidableEq, Repr

/-- The record `makeChangeInfo` builds for one recognised change: its kind, the
line id, the anchor (`parentId`, inserts only), the new text (inserts and
updates), the commit's author and the commit's timestamp. -/
structure ChangeInfo where
  kind : ChangeKind
  id : String
  parentId : Option String
  text : Option String
  userId : String
  created : Int
deriving DecidableEq, Repr

/-- `makeChangeInfo` of the per-line history builder: flatten one change,
tagging it with the enclosing commit's author and timestamp.  (The source
returns `undefined` on unrecognised variants, which the caller filters out;
the model's `Change` only has the three recognised variants.) -/
def makeChangeInfo (change : Change) (userId : String) (created : Int) : ChangeInfo :=
  match change with
  | .insert parent lineId text =>
      ⟨.insert, lineId, some parent, some text, userId, created⟩
  | .update lineId text _origText =>
      ⟨.update, lineId, none, some text, userId, created⟩
  | .delete lineId =>
      ⟨.delete, lineId, none, none, userId, created⟩

/-- The flattened change list of `convert`: every change of every commit, in
order, tagged with its commit's author and timestamp. -/
def convertChanges (commits : List Commit) : List ChangeInfo :=
  commits.flatMap (fun c => c.changes.map (fun ch => makeChangeInfo ch c.userId c.created))

/-- The `range` component of `convert`:
`[...new Set(changes.map(({ created }) => created))].sort()` — deduplicated
timestamps sorted by JavaScript's default (stringwise) comparison. -/
def convertRange (commits : List Commit) : List Int :=
  ((jsSetDedup ((convertChanges commits).map (fun ci => ci.created))).insertionSort
    (fun a b => jsDefaultLe a b = true))

/-! ### Invariants used by the theorems -/

/-- The store prefix holding the caller-supplied lines is intact: the first
`lines.length` objects still carry their original id and text. -/
def PrefixIntact (lines store : List BaseLine) : Prop :=
  lines.length ≤ store.length ∧
  ∀ r, r < lines.length →
    (resolve store r).id = (resolve lines r).id ∧
    (resolve store r).text = (resolve lines r).text

/-- Well-formedness of a reconstruction state: every reference is in bounds and
no line id repeats, in the working sequence or in any emitted snapshot. -/
def WfSt (st : St) : Prop :=
  (∀ r ∈ st.current, r < st.store.length) ∧
  (st.current.map (fun r => (resolve st.store r).id)).Nodup ∧
  ∀ e ∈ st.snapshots,
    (∀ r ∈ e.2, r < st.store.length) ∧
    (e.2.map (fun r => (resolve st.store r).id)).Nodup

/-! ### Concrete inputs of the spec's Scenario C -/

/-- Scenario C of the spec: the current lines,
`[{id:"L1", text:"Final", updated:3000}]`.  The line's `created` field is the
timestamp of its original insertion, `1000`, as forward history would set it. -/
def scenarioCLines : List BaseLine :=
  [⟨"L1", "Final", "user1", 1000, 3000⟩]

/-- Scenario C of the spec: the commit log, newest first —
an update to `"Final"` at 3000 (previous text `"Mid"`), a delete at 2000, and the
original insert of `"Mid"` at 1000. -/
def scenarioCCommits : List Commit :=
  [⟨3000, "user1", [.update "L1" "Final" "Mid"]⟩,
   ⟨2000, "user1", [.delete "L1"]⟩,
   ⟨1000, "user1", [.insert "_end" "L1" "Mid"]⟩]

/-! ## Basic facts about references, the store and the snapshot map -/

theorem length_modifyRef (s : List BaseLine) (r : Nat) (f : BaseLine → BaseLine) :
    (modifyRef s r f).length = s.length := by
  simp [modifyRef]

theorem resolve_set (s : List BaseLine) (v : BaseLine) (r r' : Nat) :
    resolve (s.set r v) r' = if r = r' ∧ r < s.length then v else resolve s r' := by
  simp only [resolve, List.getD_eq_getElem?_getD, List.getElem?_set]
  by_cases h1 : r = r'
  · subst h1
    by_cases h2 : r < s.length
    · simp [h2]
    · simp [h2, List.getElem?_eq_none (Nat.le_of_not_lt h2)]
  · simp [h1]

theorem resolve_modifyRef (s : List BaseLine) (r : Nat) (f : BaseLine → BaseLine)
    (r' : Nat) :
    resolve (modifyRef s r f) r' =
      if r = r' ∧ r < s.length then f (resolve s r) else resolve s r' := by
  simp [modifyRef, resolve_set]

theorem resolve_append_lt (s t : List BaseLine) (r : Nat) (h : r < s.length) :
    resolve (s ++ t) r = resolve s r := by
  simp [resolve, List.getD_eq_getElem?_getD, List.getElem?_append_left h]

theorem resolve_append_self (s : List BaseLine) (v : BaseLine) :
    resolve (s ++ [v]) s.length = v := by
  simp [resolve, List.getD_eq_getElem?_getD, List.getElem?_append]

theorem mapGet_mapSet_self {α : Type} (m : List (Int × α)) (k : Int) (v : α) :
    mapGet (mapSet m k v) k = some v := by
  induction m with
  | nil => simp [mapSet, mapGet]
  | cons e m ih =>
      obtain ⟨k0, v0⟩ := e
      by_cases h : k0 = k <;> simp [mapSet, mapGet, h, ih]

theorem mapGet_mapSet_ne {α : Type} (m : List (Int × α)) (k k' : Int) (v : α)
    (h : k ≠ k') :
    mapGet (mapSet m k v) k' = mapGet m k' := by
  induction m with
  | nil => simp [mapSet, mapGet, h]
  | cons e m ih =>
      obtain ⟨k0, v0⟩ := e
      by_cases h0 : k0 = k
      · subst h0
        simp [mapSet, mapGet, h]
      · by_cases h1 : k0 = k' <;>
          simp [mapSet, mapGet, h0, h1, ih, Ne.symm h]

theorem mapSet_keys_notMem {α : Type} (m : List (Int × α)) (k : Int) (v : α)
    (h : k ∉ m.map Prod.fst) :
    (mapSet m k v).map Prod.fst = m.map Prod.fst ++ [k] := by
  induction m with
  | nil => simp [mapSet]
  | cons e m ih =>
      obtain ⟨k0, v0⟩ := e
      simp only [List.map_cons, List.mem_cons] at h
      push_neg at h
      simp [mapSet, Ne.symm h.1, ih h.2]

theorem mem_mapSet {α : Type} {m : List (Int × α)} {k : Int} {v : α}
    {e : Int × α} (h : e ∈ mapSet m k v) : e ∈ m ∨ e = (k, v) := by
  induction m with
  | nil => simpa [mapSet] using h
  | cons e0 m ih =>
      obtain ⟨k0, v0⟩ := e0
      by_cases h0 : k0 = k
      · simp only [mapSet, if_pos h0, List.mem_cons] at h
        rcases h with h | h
        · exact Or.inr h
        · exact Or.inl (List.mem_cons_of_mem _ h)
      · simp only [mapSet, if_neg h0, List.mem_cons] at h
        rcases h with h | h
        · exact Or.inl (by simp [h])
        · rcases ih h with h1 | h1
          · exact Or.inl (List.mem_cons_of_mem _ h1)
          · exact Or.inr h1

theorem range_map_getD {α : Type} (l : List α) (d : α) :
    (List.range l.length).map (fun r => l.getD r d) = l := by
  refine List.ext_getElem (by simp) ?_
  intro i h1 h2
  simp [List.getD_eq_getElem?_getD, List.getElem?_eq_getElem h2]

theorem set_getD_self {α : Type} (l : List α) (i : Nat) (d : α) (_h : i < l.length) :
    l.set i (l.getD i d) = l := by
  refine List.ext_getElem (by simp) ?_
  intro j h1 h2
  rw [List.getElem_set]
  split
  · next heq =>
      subst heq
      simp [List.getD_eq_getElem?_getD, List.getElem?_eq_getElem h2]
  · rfl

/-! ## The snapshot sweep of the insert-restoration branch only touches `created` -/

theorem patchCreatedStep_fields (t : Int) (lineId : String) (s : List BaseLine)
    (entry : Int × List Nat) :
    (patchCreatedStep t lineId s entry).length = s.length ∧
    ∀ r, (resolve (patchCreatedStep t lineId s entry) r).id = (resolve s r).id ∧
         (resolve (patchCreatedStep t lineId s entry) r).text = (resolve s r).text ∧
         (resolve (patchCreatedStep t lineId s entry) r).userId = (resolve s r).userId ∧
         (resolve (patchCreatedStep t lineId s entry) r).updated = (resolve s r).updated := by
  unfold patchCreatedStep
  rcases hf : entry.2.find? (fun r2 => (resolve s r2).id == lineId) with _ | r2
  · simp
  · refine ⟨length_modifyRef _ _ _, fun r => ?_⟩
    rw [resolve_modifyRef]
    split
    · next hc =>
        obtain ⟨rfl, _⟩ := hc
        exact ⟨rfl, rfl, rfl, rfl⟩
    · exact ⟨rfl, rfl, rfl, rfl⟩

theorem patchCreated_fields (t : Int) (lineId : String) (snaps : List (Int × List Nat))
    (s : List BaseLine) :
    (patchCreated t lineId snaps s).length = s.length ∧
    ∀ r, (resolve (patchCreated t lineId snaps s) r).id = (resolve s r).id ∧
         (resolve (patchCreated t lineId snaps s) r).text = (resolve s r).text ∧
         (resolve (patchCreated t lineId snaps s) r).userId = (resolve s r).userId ∧
         (resolve (patchCreated t lineId snaps s) r).updated = (resolve s r).updated := by
  induction snaps generalizing s with
  | nil => simp [patchCreated]
  | cons e snaps ih =>
      have hcons : patchCreated t lineId (e :: snaps) s =
          patchCreated t lineId snaps (patchCreatedStep t lineId s e) := rfl
      rw [hcons]
      obtain ⟨hstepLen, hstepF⟩ := patchCreatedStep_fields t lineId s e
      obtain ⟨ihLen, ihF⟩ := ih (patchCreatedStep t lineId s e)
      refine ⟨ihLen.trans hstepLen, fun r => ?_⟩
      obtain ⟨h1, h2, h3, h4⟩ := ihF r
      obtain ⟨g1, g2, g3, g4⟩ := hstepF r
      exact ⟨h1.trans g1, h2.trans g2, h3.trans g3, h4.trans g4⟩

/-! ## Structural facts about undoing one change -/

theorem undoInsert_snapshots (c : Commit) (st : St) (lineId text : String) :
    (undoInsert c st lineId text).snapshots = st.snapshots := by
  unfold undoInsert
  rcases hf : st.current.find? (fun r => (resolve st.store r).id == lineId) with _ | r
  · rfl
  · by_cases hpl : ((resolve st.store r).text == "-1") = true <;> simp [hpl]

theorem undoUpdate_snapshots (c : Commit) (st : St) (lineId text origText : String) :
    (undoUpdate c st lineId text origText).snapshots = st.snapshots := by
  unfold undoUpdate
  rcases hf : st.current.findIdx? (fun r => (resolve st.store r).id == lineId) with _ | i
  · rfl
  · dsimp only
    split <;> rfl

theorem processChange_snapshots (c : Commit) (st : St) (ch : Change) :
    (processChange c st ch).snapshots = st.snapshots := by
  cases ch with
  | insert p lineId text => exact undoInsert_snapshots c st lineId text
  | update lineId text origText => exact undoUpdate_snapshots c st lineId text origText
  | delete lineId => rfl

theorem undoInsert_store_mono (c : Commit) (st : St) (lineId text : String) :
    st.store.length ≤ (undoInsert c st lineId text).store.length := by
  unfold undoInsert
  rcases hf : st.current.find? (fun r => (resolve st.store r).id == lineId) with _ | r
  · exact Nat.le_refl _
  · by_cases hpl : ((resolve st.store r).text == "-1") = true
    · simp only [hpl, if_true]
      rw [length_modifyRef, (patchCreated_fields _ _ _ _).1, length_modifyRef]
    · simp [hpl]

theorem undoUpdate_store_mono (c : Commit) (st : St) (lineId text origText : String) :
    st.store.length ≤ (undoUpdate c st lineId text origText).store.length := by
  unfold undoUpdate
  rcases hf : st.current.findIdx? (fun r => (resolve st.store r).id == lineId) with _ | i
  · exact Nat.le_refl _
  · dsimp only
    split
    · simp [length_modifyRef]
    · simp

theorem processChange_store_mono (c : Commit) (st : St) (ch : Change) :
    st.store.length ≤ (processChange c st ch).store.length := by
  cases ch with
  | insert p lineId text => exact undoInsert_store_mono c st lineId text
  | update lineId text origText => exact undoUpdate_store_mono c st lineId text origText
  | delete lineId => simp [processChange, undoDelete]

theorem undoInsert_preserve (c : Commit) (st : St) (lineId text : String) (r : Nat)
    (hr : r < st.store.length) :
    (resolve (undoInsert c st lineId text).store r).id = (resolve st.store r).id ∧
    ((resolve st.store r).text ≠ "-1" →
      (resolve (undoInsert c st lineId text).store r).text = (resolve st.store r).text) := by
  unfold undoInsert
  rcases hf : st.current.find? (fun r2 => (resolve st.store r2).id == lineId) with _ | rr
  · exact ⟨rfl, fun _ => rfl⟩
  · dsimp only
    split
    · next hpl =>
        rw [beq_iff_eq] at hpl
        dsimp only
        have hpc := patchCreated_fields c.created lineId st.snapshots
          (modifyRef st.store rr (fun l => { l with text := text }))
        have hlen2 : (patchCreated c.created lineId st.snapshots
            (modifyRef st.store rr (fun l => { l with text := text }))).length =
            st.store.length := by
          rw [hpc.1, length_modifyRef]
        have h1id : ∀ r', (resolve (modifyRef st.store rr
            (fun l => { l with text := text })) r').id = (resolve st.store r').id := by
          intro r'
          rw [resolve_modifyRef]
          split
          · next h => obtain ⟨rfl, _⟩ := h; rfl
          · rfl
        constructor
        · rw [resolve_modifyRef]
          split
          · next h =>
              obtain ⟨rfl, _⟩ := h
              exact ((hpc.2 rr).1).trans (h1id rr)
          · exact ((hpc.2 r).1).trans (h1id r)
        · intro ht
          have h1text : (resolve (modifyRef st.store rr
              (fun l => { l with text := text })) r).text = (resolve st.store r).text := by
            rw [resolve_modifyRef]
            split
            · next h =>
                obtain ⟨rfl, _⟩ := h
                exact absurd hpl ht
            · rfl
          rw [resolve_modifyRef]
          split
          · next h =>
              obtain ⟨rfl, _⟩ := h
              exact ((hpc.2 rr).2.1).trans h1text
          · exact ((hpc.2 r).2.1).trans h1text
    · exact ⟨rfl, fun _ => rfl⟩

theorem undoUpdate_preserve (c : Commit) (st : St) (lineId text origText : String) (r : Nat)
    (hr : r < st.store.length) :
    (resolve (undoUpdate c st lineId text origText).store r).id = (resolve st.store r).id ∧
    ((resolve st.store r).text ≠ "-1" →
      (resolve (undoUpdate c st lineId text origText).store r).text =
        (resolve st.store r).text) := by
  unfold undoUpdate
  rcases hf : st.current.findIdx? (fun r2 => (resolve st.store r2).id == lineId) with _ | i
  · exact ⟨rfl, fun _ => rfl⟩
  · dsimp only
    split
    · next hpl =>
        rw [beq_iff_eq] at hpl
        dsimp only
        constructor
        · rw [resolve_modifyRef]
          split
          · next h => obtain ⟨rfl, _⟩ := h; rfl
          · rfl
        · intro ht
          rw [resolve_modifyRef]
          split
          · next h =>
              obtain ⟨rfl, _⟩ := h
              exact absurd hpl ht
          · rfl
    · constructor
      · exact congrArg BaseLine.id (resolve_append_lt _ _ _ hr)
      · exact fun _ => congrArg BaseLine.text (resolve_append_lt _ _ _ hr)

theorem undoDelete_preserve (st : St) (lineId : String) (r : Nat)
    (hr : r < st.store.length) :
    (resolve (undoDelete st lineId).store r).id = (resolve st.store r).id ∧
    (resolve (undoDelete st lineId).store r).text = (resolve st.store r).text := by
  constructor
  · exact congrArg BaseLine.id (resolve_append_lt _ _ _ hr)
  · exact congrArg BaseLine.text (resolve_append_lt _ _ _ hr)

theorem processChange_preserve (c : Commit) (st : St) (ch : Change) (r : Nat)
    (hr : r < st.store.length) :
    (resolve (processChange c st ch).store r).id = (resolve st.store r).id ∧
    ((resolve st.store r).text ≠ "-1" →
      (resolve (processChange c st ch).store r).text = (resolve st.store r).text) := by
  cases ch with
  | insert p lineId text => exact undoInsert_preserve c st lineId text r hr
  | update lineId text origText => exact undoUpdate_preserve c st lineId text origText r hr
  | delete lineId =>
      obtain ⟨h1, h2⟩ := undoDelete_preserve st lineId r hr
      exact ⟨h1, fun _ => h2⟩

/-! ## Branch reductions of the undo operations -/

theorem undoInsert_no_restore (c : Commit) (st : St) (lineId text : String)
    (h : ∀ r ∈ st.current, (resolve st.store r).id = lineId →
      (resolve st.store r).text ≠ "-1") :
    undoInsert c st lineId text =
      { st with current :=
          st.current.filter (fun r2 => (resolve st.store r2).id != lineId) } := by
  unfold undoInsert
  rcases hf : st.current.find? (fun r2 => (resolve st.store r2).id == lineId) with _ | rr
  · rfl
  · dsimp only
    rw [if_neg]
    intro hpl
    rw [beq_iff_eq] at hpl
    have hid := List.find?_some hf
    rw [beq_iff_eq] at hid
    exact h rr (List.mem_of_find?_eq_some hf) hid hpl

theorem undoUpdate_absent (c : Commit) (st : St) (lineId text origText : String)
    (h : ∀ r ∈ st.current, (resolve st.store r).id ≠ lineId) :
    undoUpdate c st lineId text origText = st := by
  unfold undoUpdate
  have hf : st.current.findIdx? (fun r => (resolve st.store r).id == lineId) = none := by
    rw [List.findIdx?_eq_none_iff]
    intro r hr
    simp [h r hr]
  rw [hf]

/-! ## Commit-level facts -/

theorem foldl_processChange_snapshots (c : Commit) (chs : List Change) (st : St) :
    (chs.foldl (processChange c) st).snapshots = st.snapshots := by
  induction chs generalizing st with
  | nil => rfl
  | cons ch chs ih =>
      rw [List.foldl_cons, ih, processChange_snapshots]

theorem processCommit_snapshots (st : St) (c : Commit) :
    (processCommit st c).snapshots = mapSet st.snapshots c.created st.current := by
  unfold processCommit
  rw [foldl_processChange_snapshots]

theorem foldl_processChange_store_mono (c : Commit) (chs : List Change) (st : St) :
    st.store.length ≤ (chs.foldl (processChange c) st).store.length := by
  induction chs generalizing st with
  | nil => exact Nat.le_refl _
  | cons ch chs ih =>
      exact (processChange_store_mono c st ch).trans (ih _)

theorem foldl_processChange_preserve (c : Commit) (chs : List Change) (st : St) (r : Nat)
    (hr : r < st.store.length) :
    (resolve ((chs.foldl (processChange c) st).store) r).id = (resolve st.store r).id ∧
    ((resolve st.store r).text ≠ "-1" →
      (resolve ((chs.foldl (processChange c) st).store) r).text =
        (resolve st.store r).text) := by
  induction chs generalizing st with
  | nil => exact ⟨rfl, fun _ => rfl⟩
  | cons ch chs ih =>
      rw [List.foldl_cons]
      have hr1 : r < (processChange c st ch).store.length :=
        Nat.lt_of_lt_of_le hr (processChange_store_mono c st ch)
      obtain ⟨h1, h2⟩ := processChange_preserve c st ch r hr
      obtain ⟨g1, g2⟩ := ih (processChange c st ch) hr1
      refine ⟨g1.trans h1, fun ht => ?_⟩
      have hst1 : (resolve (processChange c st ch).store r).text =
          (resolve st.store r).text := h2 ht
      have ht1 : (resolve (processChange c st ch).store r).text ≠ "-1" := by
        rw [hst1]
        exact ht
      exact (g2 ht1).trans hst1

theorem mapGet_map_value {α β : Type} (m : List (Int × α)) (g : α → β) (k : Int) :
    mapGet (m.map (fun e => (e.1, g e.2))) k = (mapGet m k).map g := by
  induction m with
  | nil => rfl
  | cons e m ih =>
      obtain ⟨k0, v0⟩ := e
      by_cases h : k0 = k <;> simp [mapGet, h, ih]

theorem keys_foldl_processCommit (cs : List Commit) (st : St)
    (hdisj : ∀ c ∈ cs, c.created ∉ st.snapshots.map Prod.fst)
    (hnd : (cs.map Commit.created).Nodup) :
    ((cs.foldl processCommit st).snapshots).map Prod.fst =
      st.snapshots.map Prod.fst ++ cs.map Commit.created := by
  induction cs generalizing st with
  | nil => simp
  | cons c cs ih =>
      rw [List.foldl_cons]
      have hkeys1 : (processCommit st c).snapshots.map Prod.fst =
          st.snapshots.map Prod.fst ++ [c.created] := by
        rw [processCommit_snapshots]
        exact mapSet_keys_notMem _ _ _ (hdisj c (List.mem_cons_self c cs))
      rw [List.map_cons] at hnd
      have hdisj1 : ∀ c1 ∈ cs, c1.created ∉ (processCommit st c).snapshots.map Prod.fst := by
        intro c1 hc1
        rw [hkeys1]
        intro hmem
        rcases List.mem_append.mp hmem with hmem | hmem
        · exact hdisj c1 (List.mem_cons_of_mem c hc1) hmem
        · rw [List.mem_singleton] at hmem
          exact (List.nodup_cons.mp hnd).1 (hmem ▸ List.mem_map_of_mem Commit.created hc1)
      rw [ih (processCommit st c) hdisj1 (List.nodup_cons.mp hnd).2, hkeys1]
      simp

theorem mapGet_foldl_processCommit (cs : List Commit) (st : St) (k : Int)
    (hk : ∀ c ∈ cs, c.created ≠ k) :
    mapGet ((cs.foldl processCommit st).snapshots) k = mapGet st.snapshots k := by
  induction cs generalizing st with
  | nil => rfl
  | cons c cs ih =>
      rw [List.foldl_cons, ih _ (fun c1 hc1 => hk c1 (List.mem_cons_of_mem c hc1)),
        processCommit_snapshots,
        mapGet_mapSet_ne _ _ _ _ (hk c (List.mem_cons_self c cs))]

theorem processCommit_prefixIntact (st : St) (c : Commit) (lines : List BaseLine)
    (hl : ∀ l ∈ lines, l.text ≠ "-1")
    (hpi : PrefixIntact lines st.store) :
    PrefixIntact lines (processCommit st c).store := by
  have hst1 : (processCommit st c).store =
      ((c.changes.foldl (processChange c)
        { st with snapshots := mapSet st.snapshots c.created st.current }).store) := rfl
  constructor
  · rw [hst1]
    exact hpi.1.trans (foldl_processChange_store_mono c c.changes
      { st with snapshots := mapSet st.snapshots c.created st.current })
  · intro r hr
    obtain ⟨hid, htext⟩ := hpi.2 r hr
    have hrlen : r < st.store.length := Nat.lt_of_lt_of_le hr hpi.1
    have hmem : resolve lines r ∈ lines := by
      rw [resolve, List.getD_eq_getElem?_getD, List.getElem?_eq_getElem hr]
      exact List.getElem_mem hr
    have hne : (resolve st.store r).text ≠ "-1" := by
      rw [htext]
      exact hl _ hmem
    obtain ⟨g1, g2⟩ := foldl_processChange_preserve c c.changes
      { st with snapshots := mapSet st.snapshots c.created st.current } r hrlen
    rw [hst1]
    exact ⟨g1.trans hid, (g2 hne).trans htext⟩

theorem foldl_processCommit_prefixIntact (cs : List Commit) (st : St)
    (lines : List BaseLine)
    (hl : ∀ l ∈ lines, l.text ≠ "-1")
    (hpi : PrefixIntact lines st.store) :
    PrefixIntact lines ((cs.foldl processCommit st).store) := by
  induction cs generalizing st with
  | nil => exact hpi
  | cons c cs ih =>
      rw [List.foldl_cons]
      exact ih _ (processCommit_prefixIntact st c lines hl hpi)

/-! ## Well-formedness is preserved by the sweep (no clashing delete) -/

theorem map_getD {α β : Type} (f : α → β) (l : List α) (i : Nat) (d : β) (d0 : α)
    (h : i < l.length) :
    (l.map f).getD i d = f (l.getD i d0) := by
  simp [List.getD_eq_getElem?_getD, List.getElem?_eq_getElem, h]

theorem undoInsert_cases (c : Commit) (st : St) (lineId text : String) :
    (undoInsert c st lineId text).current = st.current ∨
    ((undoInsert c st lineId text).current =
        st.current.filter (fun r2 => (resolve st.store r2).id != lineId) ∧
      (undoInsert c st lineId text).store = st.store) := by
  unfold undoInsert
  rcases hf : st.current.find? (fun r2 => (resolve st.store r2).id == lineId) with _ | rr
  · exact Or.inr ⟨rfl, rfl⟩
  · dsimp only
    split
    · exact Or.inl rfl
    · exact Or.inr ⟨rfl, rfl⟩

theorem undoUpdate_cases (c : Commit) (st : St) (lineId text origText : String) :
    undoUpdate c st lineId text origText = st ∨
    ((undoUpdate c st lineId text origText).current = st.current ∧
      (undoUpdate c st lineId text origText).store.length = st.store.length) ∨
    (∃ i, i < st.current.length ∧
      (undoUpdate c st lineId text origText).current = st.current.set i st.store.length ∧
      (undoUpdate c st lineId text origText).store =
        st.store ++ [{ resolve st.store (st.current.getD i 0) with
          text := origText, updated := -1 }]) := by
  unfold undoUpdate
  rcases hf : st.current.findIdx? (fun r => (resolve st.store r).id == lineId) with _ | i
  · exact Or.inl rfl
  · dsimp only
    have hi : i < st.current.length :=
      (List.findIdx?_eq_some_iff_findIdx_eq.mp hf).1
    split
    · exact Or.inr (Or.inl ⟨rfl, by simp [length_modifyRef]⟩)
    · exact Or.inr (Or.inr ⟨i, hi, rfl, rfl⟩)

theorem undoInsert_wf (c : Commit) (st : St) (lineId text : String) (h : WfSt st) :
    WfSt (undoInsert c st lineId text) := by
  obtain ⟨h1, h2, h3⟩ := h
  have hmono := undoInsert_store_mono c st lineId text
  have hpres := fun r hr => (undoInsert_preserve c st lineId text r hr).1
  have hsnap := undoInsert_snapshots c st lineId text
  rcases undoInsert_cases c st lineId text with hcur | ⟨hcur, hstore⟩
  · refine ⟨?_, ?_, ?_⟩
    · intro r hr
      rw [hcur] at hr
      exact Nat.lt_of_lt_of_le (h1 r hr) hmono
    · rw [hcur, List.map_congr_left (fun r hr => hpres r (h1 r hr))]
      exact h2
    · intro e he
      rw [hsnap] at he
      obtain ⟨g1, g2⟩ := h3 e he
      refine ⟨fun r hr => Nat.lt_of_lt_of_le (g1 r hr) hmono, ?_⟩
      rw [List.map_congr_left (fun r hr => hpres r (g1 r hr))]
      exact g2
  · refine ⟨?_, ?_, ?_⟩
    · intro r hr
      rw [hcur] at hr
      rw [hstore]
      exact h1 r (List.mem_of_mem_filter hr)
    · rw [hcur, hstore]
      exact List.Nodup.sublist (List.Sublist.map _ (List.filter_sublist _)) h2
    · intro e he
      rw [hsnap] at he
      rw [hstore]
      exact h3 e he

theorem undoUpdate_wf (c : Commit) (st : St) (lineId text origText : String)
    (h : WfSt st) :
    WfSt (undoUpdate c st lineId text origText) := by
  obtain ⟨h1, h2, h3⟩ := h
  have hmono := undoUpdate_store_mono c st lineId text origText
  have hpres := fun r hr => (undoUpdate_preserve c st lineId text origText r hr).1
  have hsnap := undoUpdate_snapshots c st lineId text origText
  rcases undoUpdate_cases c st lineId text origText with heq | ⟨hcur, _⟩ | ⟨i, hi, hcur, hstore⟩
  · rw [heq]
    exact ⟨h1, h2, h3⟩
  · refine ⟨?_, ?_, ?_⟩
    · intro r hr
      rw [hcur] at hr
      exact Nat.lt_of_lt_of_le (h1 r hr) hmono
    · rw [hcur, List.map_congr_left (fun r hr => hpres r (h1 r hr))]
      exact h2
    · intro e he
      rw [hsnap] at he
      obtain ⟨g1, g2⟩ := h3 e he
      refine ⟨fun r hr => Nat.lt_of_lt_of_le (g1 r hr) hmono, ?_⟩
      rw [List.map_congr_left (fun r hr => hpres r (g1 r hr))]
      exact g2
  · refine ⟨?_, ?_, ?_⟩
    · intro r hr
      rw [hcur] at hr
      rcases List.mem_or_eq_of_mem_set hr with hr | rfl
      · exact Nat.lt_of_lt_of_le (h1 r hr) hmono
      · rw [hstore]
        simp
    · rw [hcur, hstore, List.map_set]
      have hmap : st.current.map
            (fun r => (resolve (st.store ++
              [{ resolve st.store (st.current.getD i 0) with
                text := origText, updated := -1 }]) r).id) =
          st.current.map (fun r => (resolve st.store r).id) :=
        List.map_congr_left (fun r hr => by
          rw [resolve_append_lt _ _ _ (h1 r hr)])
      rw [hmap, resolve_append_self]
      have hgetD : (resolve st.store (st.current.getD i 0)).id =
          (st.current.map (fun r => (resolve st.store r).id)).getD i "" := by
        rw [map_getD _ _ _ _ 0 hi]
      show ((st.current.map (fun r => (resolve st.store r).id)).set i
        (resolve st.store (st.current.getD i 0)).id).Nodup
      rw [hgetD, set_getD_self _ _ _ (by simpa using hi)]
      exact h2
    · intro e he
      rw [hsnap] at he
      obtain ⟨g1, g2⟩ := h3 e he
      refine ⟨fun r hr => Nat.lt_of_lt_of_le (g1 r hr) hmono, ?_⟩
      rw [List.map_congr_left (fun r hr => hpres r (g1 r hr))]
      exact g2

theorem undoDelete_wf (st : St) (lineId : String) (h : WfSt st)
    (hclash : st.current.any (fun r => (resolve st.store r).id == lineId) = false) :
    WfSt (undoDelete st lineId) := by
  obtain ⟨h1, h2, h3⟩ := h
  have hnotmem : lineId ∉ st.current.map (fun r => (resolve st.store r).id) := by
    intro hmem
    obtain ⟨r, hr, heq⟩ := List.mem_map.mp hmem
    exact (List.any_eq_false.mp hclash r hr) (by rw [beq_iff_eq]; exact heq)
  refine ⟨?_, ?_, ?_⟩
  · intro r hr
    rcases List.mem_append.mp hr with hr | hr
    · simp only [undoDelete, List.length_append, List.length_cons, List.length_nil]
      exact Nat.lt_of_lt_of_le (h1 r hr) (Nat.le_add_right _ _)
    · rw [List.mem_singleton] at hr
      subst hr
      simp [undoDelete]
  · show ((st.current ++ [st.store.length]).map
      (fun r => (resolve (st.store ++ [⟨lineId, "-1", "-1", -1, -1⟩]) r).id)).Nodup
    rw [List.map_append]
    have hmap : st.current.map
          (fun r => (resolve (st.store ++ [⟨lineId, "-1", "-1", -1, -1⟩]) r).id) =
        st.current.map (fun r => (resolve st.store r).id) :=
      List.map_congr_left (fun r hr => by rw [resolve_append_lt _ _ _ (h1 r hr)])
    rw [hmap]
    rw [List.nodup_append]
    refine ⟨h2, by simp, ?_⟩
    intro a ha hb
    simp only [List.map_cons, List.map_nil, resolve_append_self, List.mem_singleton] at hb
    exact hnotmem (hb ▸ ha)
  · intro e he
    obtain ⟨g1, g2⟩ := h3 e he
    refine ⟨?_, ?_⟩
    · intro r hr
      simp only [undoDelete, List.length_append, List.length_cons, List.length_nil]
      exact Nat.lt_of_lt_of_le (g1 r hr) (Nat.le_add_right _ _)
    · rw [List.map_congr_left (fun r hr => by
        rw [show (undoDelete st lineId).store = st.store ++ [⟨lineId, "-1", "-1", -1, -1⟩] from rfl,
          resolve_append_lt _ _ _ (g1 r hr)])]
      exact g2

theorem processChange_wf (c : Commit) (st : St) (ch : Change) (h : WfSt st)
    (hclash : changeClash st ch = false) :
    WfSt (processChange c st ch) := by
  cases ch with
  | insert p lineId text => exact undoInsert_wf c st lineId text h
  | update lineId text origText => exact undoUpdate_wf c st lineId text origText h
  | delete lineId => exact undoDelete_wf st lineId h hclash

theorem emit_wf (st : St) (k : Int) (h : WfSt st) :
    WfSt { st with snapshots := mapSet st.snapshots k st.current } := by
  obtain ⟨h1, h2, h3⟩ := h
  refine ⟨h1, h2, ?_⟩
  intro e he
  rcases mem_mapSet he with he | rfl
  · exact h3 e he
  · exact ⟨h1, h2⟩

theorem foldl_stepChecked_fst (c : Commit) (chs : List Change) (st : St) (b : Bool) :
    (chs.foldl (stepChecked c) (st, b)).1 = chs.foldl (processChange c) st := by
  induction chs generalizing st b with
  | nil => rfl
  | cons ch chs ih =>
      rw [List.foldl_cons, List.foldl_cons]
      exact ih _ _

theorem foldl_stepChecked_false (c : Commit) (chs : List Change) (st : St) (b : Bool)
    (h : (chs.foldl (stepChecked c) (st, b)).2 = false) : b = false := by
  induction chs generalizing st b with
  | nil => exact h
  | cons ch chs ih =>
      rw [List.foldl_cons] at h
      exact (Bool.or_eq_false_iff.mp (ih _ _ h)).1

theorem foldl_stepChecked_wf (c : Commit) (chs : List Change) (st : St) (b : Bool)
    (hw : WfSt st) (h : (chs.foldl (stepChecked c) (st, b)).2 = false) :
    WfSt (chs.foldl (processChange c) st) := by
  induction chs generalizing st b with
  | nil => exact hw
  | cons ch chs ih =>
      rw [List.foldl_cons] at h ⊢
      have hbc : (b || changeClash st ch) = false := foldl_stepChecked_false c chs _ _ h
      have hcl : changeClash st ch = false := (Bool.or_eq_false_iff.mp hbc).2
      exact ih _ _ (processChange_wf c st ch hw hcl) h

theorem processCommitChecked_fst (p : St × Bool) (c : Commit) :
    (processCommitChecked p c).1 = processCommit p.1 c := by
  unfold processCommitChecked processCommit
  exact foldl_stepChecked_fst c c.changes _ p.2

theorem foldl_processCommitChecked_fst (cs : List Commit) (p : St × Bool) :
    (cs.foldl processCommitChecked p).1 = cs.foldl processCommit p.1 := by
  induction cs generalizing p with
  | nil => rfl
  | cons c cs ih =>
      rw [List.foldl_cons, List.foldl_cons, ih, processCommitChecked_fst]

theorem foldl_processCommitChecked_false (cs : List Commit) (p : St × Bool)
    (h : (cs.foldl processCommitChecked p).2 = false) : p.2 = false := by
  induction cs generalizing p with
  | nil => exact h
  | cons c cs ih =>
      rw [List.foldl_cons] at h
      exact foldl_stepChecked_false c c.changes _ _ (ih _ h)

theorem foldl_processCommitChecked_wf (cs : List Commit) (p : St × Bool)
    (hw : WfSt p.1) (h : (cs.foldl processCommitChecked p).2 = false) :
    WfSt (cs.foldl processCommit p.1) := by
  induction cs generalizing p with
  | nil => exact hw
  | cons c cs ih =>
      rw [List.foldl_cons] at h ⊢
      have hfst := processCommitChecked_fst p c
      have h2false : (processCommitChecked p c).2 = false :=
        foldl_processCommitChecked_false cs _ h
      have hwf1 : WfSt (processCommit p.1 c) := by
        unfold processCommit
        exact foldl_stepChecked_wf c c.changes _ p.2 (emit_wf p.1 c.created hw) h2false
      have hih := ih (processCommitChecked p c) (by rw [hfst]; exact hwf1) h
      rw [hfst] at hih
      exact hih

theorem initSt_wf (lines : List BaseLine)
    (hnd : (lines.map (fun l => l.id)).Nodup) : WfSt (initSt lines) := by
  refine ⟨?_, ?_, ?_⟩
  · intro r hr
    exact List.mem_range.mp hr
  · show ((List.range lines.length).map (fun r => (resolve lines r).id)).Nodup
    have hmap : (List.range lines.length).map (fun r => (resolve lines r).id) =
        lines.map (fun l => l.id) := by
      rw [show (fun r => (resolve lines r).id) =
          ((fun l => l.id) ∘ (fun r => lines.getD r dummyLine)) from rfl,
        ← List.map_map, range_map_getD]
    rw [hmap]
    exact hnd
  · intro e he
    simp [initSt] at he

theorem runSnapshots_wf (lines : List BaseLine) (commits : List Commit)
    (hnd : (lines.map (fun l => l.id)).Nodup)
    (hclash : deleteClash lines commits = false) :
    WfSt (runSnapshots lines commits) := by
  unfold runSnapshots
  exact foldl_processCommitChecked_wf commits (initSt lines, false)
    (initSt_wf lines hnd) hclash

/-! ## The JavaScript default sort comparison is a total preorder -/

theorem lexLe_trans (a : List Nat) : ∀ b c, lexLe a b = true → lexLe b c = true →
    lexLe a c = true := by
  induction a with
  | nil => intro b c _ _; rfl
  | cons x as ih =>
      intro b c h1 h2
      cases b with
      | nil => simp [lexLe] at h1
      | cons y bs =>
          cases c with
          | nil => simp [lexLe] at h2
          | cons z cs =>
              simp only [lexLe] at h1 h2 ⊢
              by_cases hxy : x < y
              · by_cases hyz : y < z
                · simp [Nat.lt_trans hxy hyz]
                · by_cases hzy : z < y
                  · simp [hyz, hzy] at h2
                  · have hyzeq : y = z :=
                      Nat.le_antisymm (Nat.le_of_not_lt hzy) (Nat.le_of_not_lt hyz)
                    subst hyzeq
                    simp [hxy]
              · by_cases hyx : y < x
                · simp [hxy, hyx] at h1
                · have hxyeq : x = y :=
                    Nat.le_antisymm (Nat.le_of_not_lt hyx) (Nat.le_of_not_lt hxy)
                  subst hxyeq
                  simp only [Nat.lt_irrefl, if_false] at h1
                  by_cases hxz : x < z
                  · simp [hxz]
                  · by_cases hzx : z < x
                    · simp [hxz, hzx] at h2
                    · simp only [hxz, hzx, if_false] at h2 ⊢
                      exact ih bs cs h1 h2

theorem lexLe_total (a : List Nat) : ∀ b, lexLe a b = true ∨ lexLe b a = true := by
  induction a with
  | nil => intro b; exact Or.inl rfl
  | cons x as ih =>
      intro b
      cases b with
      | nil => exact Or.inr rfl
      | cons y bs =>
          by_cases hxy : x < y
          · exact Or.inl (by simp [lexLe, hxy])
          · by_cases hyx : y < x
            · exact Or.inr (by simp [lexLe, hyx])
            · have hxyeq : x = y :=
                Nat.le_antisymm (Nat.le_of_not_lt hyx) (Nat.le_of_not_lt hxy)
              subst hxyeq
              rcases ih bs with h | h
              · exact Or.inl (by simp [lexLe, Nat.lt_irrefl, h])
              · exact Or.inr (by simp [lexLe, Nat.lt_irrefl, h])

theorem mem_jsSetDedupAux (seen : List Int) (l : List Int) (a : Int)
    (h : a ∈ jsSetDedupAux seen l) : a ∈ l ∧ a ∉ seen := by
  induction l generalizing seen with
  | nil => simp [jsSetDedupAux] at h
  | cons b l ih =>
      by_cases hb : b ∈ seen
      · simp only [jsSetDedupAux, if_pos hb] at h
        obtain ⟨h1, h2⟩ := ih _ h
        exact ⟨List.mem_cons_of_mem _ h1, h2⟩
      · simp only [jsSetDedupAux, if_neg hb] at h
        rcases List.mem_cons.mp h with rfl | h
        · exact ⟨List.mem_cons_self _ _, hb⟩
        · obtain ⟨h1, h2⟩ := ih _ h
          exact ⟨List.mem_cons_of_mem _ h1,
            fun hs => h2 (List.mem_cons_of_mem _ hs)⟩

theorem nodup_jsSetDedupAux (seen : List Int) (l : List Int) :
    (jsSetDedupAux seen l).Nodup := by
  induction l generalizing seen with
  | nil => exact List.nodup_nil
  | cons b l ih =>
      by_cases hb : b ∈ seen
      · simp only [jsSetDedupAux, if_pos hb]
        exact ih _
      · simp only [jsSetDedupAux, if_neg hb]
        rw [List.nodup_cons]
        exact ⟨fun hmem => (mem_jsSetDedupAux _ _ _ hmem).2 (List.mem_cons_self _ _), ih _⟩

theorem jsSetDedup_nodup (l : List Int) : (jsSetDedup l).Nodup :=
  nodup_jsSetDedupAux [] l

/-! ## Reduction of the non-placeholder update branch (shared helper) -/

theorem undoUpdate_nonplaceholder_eq (c : Commit) (st : St)
    (lineId newText origText : String) (i : Nat)
    (hfind : st.current.findIdx? (fun r => (resolve st.store r).id == lineId) = some i)
    (hnp : (resolve st.store (st.current.getD i 0)).text ≠ "-1") :
    undoUpdate c st lineId newText origText =
      { st with
        store := st.store ++ [{ resolve st.store (st.current.getD i 0) with
          text := origText, updated := -1 }],
        current := st.current.set i st.store.length } := by
  unfold undoUpdate
  rw [hfind]
  dsimp only
  rw [if_neg]
  intro hc
  rw [beq_iff_eq] at hc
  exact hnp hc

/-! ## The claims -/

/-- **C1**: when `makeSnapshots` undoes an `_update` on a line that is not a
placeholder (text not `"-1"`), it allocates a fresh line object carrying the
operation's previous text (`origText`), and every already-emitted snapshot is
unchanged: the emitted reference lists stay the same, every reference they hold
still resolves to the very same line (in particular the same text) after the
undo as before it, and the fresh object's reference occurs in no emitted
snapshot — object identity differs between the pre- and post-update objects. -/
theorem C1_undoUpdate_nonplaceholder_fresh
    (c : Commit) (st : St) (lineId newText origText : String) (i : Nat)
    (hfind : st.current.findIdx? (fun r => (resolve st.store r).id == lineId) = some i)
    (hnp : (resolve st.store (st.current.getD i 0)).text ≠ "-1")
    (hvalid : ∀ e ∈ st.snapshots, ∀ r ∈ e.2, r < st.store.length) :
    (processChange c st (.update lineId newText origText)).store =
        st.store ++ [{ resolve st.store (st.current.getD i 0) with
          text := origText, updated := -1 }] ∧
    (processChange c st (.update lineId newText origText)).snapshots = st.snapshots ∧
    (processChange c st (.update lineId newText origText)).current =
        st.current.set i st.store.length ∧
    (∀ e ∈ st.snapshots, ∀ r ∈ e.2,
      resolve (processChange c st (.update lineId newText origText)).store r =
        resolve st.store r) ∧
    (∀ e ∈ st.snapshots, st.store.length ∉ e.2) := by
  have hred : processChange c st (.update lineId newText origText) =
      { st with
        store := st.store ++ [{ resolve st.store (st.current.getD i 0) with
          text := origText, updated := -1 }],
        current := st.current.set i st.store.length } :=
    undoUpdate_nonplaceholder_eq c st lineId newText origText i hfind hnp
  refine ⟨by rw [hred], by rw [hred], by rw [hred], ?_, ?_⟩
  · intro e he r hr
    rw [hred]
    exact resolve_append_lt _ _ _ (hvalid e he r hr)
  · intro e he hmem
    exact Nat.lt_irrefl _ (hvalid e he _ hmem)

/-- Witness for C1: one current line `X` with text `"B"` (not a placeholder) and
one emitted snapshot referencing it; undoing `Update(X, "B", prev "A")` appends
the fresh object with text `"A"`. -/
theorem C1_undoUpdate_nonplaceholder_fresh_witness :
    (processChange ⟨5, "u", []⟩
        ⟨[⟨"X", "B", "u", 1, 2⟩], [0], [(7, [0])]⟩
        (.update "X" "B" "A")).store =
      [⟨"X", "B", "u", 1, 2⟩] ++ [⟨"X", "A", "u", 1, -1⟩] :=
  (C1_undoUpdate_nonplaceholder_fresh ⟨5, "u", []⟩
    ⟨[⟨"X", "B", "u", 1, 2⟩], [0], [(7, [0])]⟩ "X" "B" "A" 0
    (by decide) (by decide) (by decide)).1

/-- **C10**: the fresh object allocated when undoing an `_update` on a
non-placeholder line carries the dummy `updated` timestamp `-1` (not a real
timestamp), and the placeholder restored by undoing a `_delete` carries
text `"-1"`, userId `"-1"`, created `-1` and updated `-1`. -/
theorem C10_dummy_sentinels
    (c : Commit) (st : St) (lineId newText origText delId : String) (i : Nat)
    (hfind : st.current.findIdx? (fun r => (resolve st.store r).id == lineId) = some i)
    (hnp : (resolve st.store (st.current.getD i 0)).text ≠ "-1") :
    ((processChange c st (.update lineId newText origText)).store =
      st.store ++ [{ resolve st.store (st.current.getD i 0) with
        text := origText, updated := -1 }]) ∧
    (processChange c st (.delete delId) =
      { st with
        store := st.store ++ [⟨delId, "-1", "-1", -1, -1⟩],
        current := st.current ++ [st.store.length] }) := by
  constructor
  · rw [show processChange c st (.update lineId newText origText) =
      undoUpdate c st lineId newText origText from rfl,
      undoUpdate_nonplaceholder_eq c st lineId newText origText i hfind hnp]
  · rfl

/-- Witness for C10 at the same concrete state as C1's witness. -/
theorem C10_dummy_sentinels_witness :
    ((processChange ⟨5, "u", []⟩
        ⟨[⟨"X", "B", "u", 1, 2⟩], [0], [(7, [0])]⟩
        (.update "X" "B" "A")).store =
      [⟨"X", "B", "u", 1, 2⟩] ++ [⟨"X", "A", "u", 1, -1⟩]) ∧
    (processChange ⟨5, "u", []⟩
        ⟨[⟨"X", "B", "u", 1, 2⟩], [0], [(7, [0])]⟩
        (.delete "D")).current = [0] ++ [1] :=
  ⟨(C10_dummy_sentinels ⟨5, "u", []⟩
      ⟨[⟨"X", "B", "u", 1, 2⟩], [0], [(7, [0])]⟩ "X" "B" "A" "D" 0
      (by decide) (by decide)).1,
   congrArg St.current (C10_dummy_sentinels ⟨5, "u", []⟩
      ⟨[⟨"X", "B", "u", 1, 2⟩], [0], [(7, [0])]⟩ "X" "B" "A" "D" 0
      (by decide) (by decide)).2⟩

/-- **C2** (Scenario C of the spec, with the current line's `created` equal to
`1000`, the timestamp of its original insertion): the reconstructed texts are
`"Final"` at 3000, `"Mid"` at 2000 and `"Mid"` at 1000 (first line), and the
`created` field of the first line of the snapshots at 3000 and 2000 is `1000`. -/
theorem C2_scenarioC :
    (((mapGet (makeSnapshots scenarioCLines scenarioCCommits) 3000).getD []).map
        (fun l => l.text) = ["Final"]) ∧
    (((mapGet (makeSnapshots scenarioCLines scenarioCCommits) 2000).getD []).map
        (fun l => l.text) = ["Mid"]) ∧
    ((((mapGet (makeSnapshots scenarioCLines scenarioCCommits) 1000).getD
        []).headD dummyLine).text = "Mid") ∧
    ((((mapGet (makeSnapshots scenarioCLines scenarioCCommits) 3000).getD
        []).headD dummyLine).created = 1000) ∧
    ((((mapGet (makeSnapshots scenarioCLines scenarioCCommits) 2000).getD
        []).headD dummyLine).created = 1000) := by
  decide

/-- **C3 counterexample**: with `Delete X` at 3000, `Insert X "A"` at 2000 and an
older (empty) commit at 1000, the restored-then-corrected line `X` is *not*
removed from the working sequence when the insert is undone, so the snapshot at
1000 — older than the insert's commit — still contains `X`, contradicting the
claim that `X` is absent from every snapshot older than its insertion. -/
theorem C3_cex :
    ((mapGet (makeSnapshots []
        [⟨3000, "u", [.delete "X"]⟩,
         ⟨2000, "u", [.insert "_end" "X" "A"]⟩,
         ⟨1000, "u", []⟩]) 1000).getD []).map (fun l => l.id) = ["X"] := by
  decide

/-- **C3 amended**: when `makeSnapshots` undoes an `_insert` whose line is
currently a placeholder (text `"-1"`), it mutates that placeholder in place —
text from the insert's data, `updated` and author from the insert's commit —
but it does **not** remove the corrected line from the working sequence
(`wasRestored` suppresses the removal), so the line remains in the snapshots
subsequently emitted for older commits; the emitted snapshots' reference lists
and the store's size are unchanged. -/
theorem C3_restore_keeps_line
    (c : Commit) (st : St) (p lineId text : String) (r : Nat)
    (hfind : st.current.find? (fun r2 => (resolve st.store r2).id == lineId) = some r)
    (hr : r < st.store.length)
    (hpl : (resolve st.store r).text = "-1") :
    (processChange c st (.insert p lineId text)).current = st.current ∧
    (processChange c st (.insert p lineId text)).snapshots = st.snapshots ∧
    (processChange c st (.insert p lineId text)).store.length = st.store.length ∧
    (resolve (processChange c st (.insert p lineId text)).store r).id =
      (resolve st.store r).id ∧
    (resolve (processChange c st (.insert p lineId text)).store r).text = text ∧
    (resolve (processChange c st (.insert p lineId text)).store r).updated = c.created ∧
    (resolve (processChange c st (.insert p lineId text)).store r).userId = c.userId := by
  have hred : processChange c st (.insert p lineId text) =
      { st with store := restoreStore c st lineId text r } := by
    show undoInsert c st lineId text = _
    unfold undoInsert
    rw [hfind]
    dsimp only
    rw [if_pos]
    · rfl
    · rw [beq_iff_eq]
      exact hpl
  have hpc := patchCreated_fields c.created lineId st.snapshots
    (modifyRef st.store r (fun l => { l with text := text }))
  have hlen2 : (patchCreated c.created lineId st.snapshots
      (modifyRef st.store r (fun l => { l with text := text }))).length =
      st.store.length := by
    rw [hpc.1, length_modifyRef]
  have hr2 : r < (patchCreated c.created lineId st.snapshots
      (modifyRef st.store r (fun l => { l with text := text }))).length := by
    rw [hlen2]
    exact hr
  have hres3 : resolve (modifyRef (patchCreated c.created lineId st.snapshots
      (modifyRef st.store r (fun l => { l with text := text }))) r
      (fun l => { l with updated := c.created, userId := c.userId })) r =
      { resolve (patchCreated c.created lineId st.snapshots
          (modifyRef st.store r (fun l => { l with text := text }))) r with
        updated := c.created, userId := c.userId } := by
    rw [resolve_modifyRef, if_pos ⟨rfl, hr2⟩]
  have hres1 : resolve (modifyRef st.store r (fun l => { l with text := text })) r =
      { resolve st.store r with text := text } := by
    rw [resolve_modifyRef, if_pos ⟨rfl, hr⟩]
  rw [hred]
  unfold restoreStore
  refine ⟨rfl, rfl, ?_, ?_, ?_, ?_, ?_⟩
  · dsimp only
    rw [length_modifyRef, hlen2]
  · dsimp only
    rw [hres3]
    dsimp only
    rw [(hpc.2 r).1, hres1]
  · dsimp only
    rw [hres3]
    dsimp only
    rw [(hpc.2 r).2.1, hres1]
  · dsimp only
    rw [hres3]
  · dsimp only
    rw [hres3]

/-- Witness for the amended C3: a placeholder `X` in the working sequence and in
one emitted snapshot; undoing `Insert(X, "A")` keeps `X` in the working
sequence and restores its fields in place. -/
theorem C3_restore_keeps_line_witness :
    (processChange ⟨2000, "u", []⟩
        ⟨[⟨"X", "-1", "-1", -1, -1⟩], [0], [(3000, [0])]⟩
        (.insert "_end" "X" "A")).current = [0] ∧
    (resolve (processChange ⟨2000, "u", []⟩
        ⟨[⟨"X", "-1", "-1", -1, -1⟩], [0], [(3000, [0])]⟩
        (.insert "_end" "X" "A")).store 0).text = "A" := by
  have h := C3_restore_keeps_line ⟨2000, "u", []⟩
    ⟨[⟨"X", "-1", "-1", -1, -1⟩], [0], [(3000, [0])]⟩ "_end" "X" "A" 0
    (by decide) (by decide) (by decide)
  exact ⟨h.1, h.2.2.2.2.1⟩

/-- **C4 counterexample**: take current line `X` and one commit at 2000 whose
change list is `[Delete X, Insert X "A"]`, followed by an empty commit at 1000.
Undoing left-to-right (as the code does), the `Delete` first appends a
placeholder for `X` and the `Insert` then removes both `X` lines, so the
snapshot at 1000 is empty; undoing right-to-left (as the claim states) the
`Insert` removes `X` first and the `Delete` then appends the placeholder, so
the snapshot at 1000 holds the placeholder.  The code disagrees with the
claimed right-to-left order. -/
theorem C4_cex :
    mapGet (makeSnapshots [⟨"X", "A", "u", 1, 1⟩]
        [⟨2000, "u", [.delete "X", .insert "_end" "X" "A"]⟩, ⟨1000, "u", []⟩]) 1000 =
      some [] ∧
    mapGet (makeSnapshotsRevOrder [⟨"X", "A", "u", 1, 1⟩]
        [⟨2000, "u", [.delete "X", .insert "_end" "X" "A"]⟩, ⟨1000, "u", []⟩]) 1000 =
      some [⟨"X", "-1", "-1", -1, -1⟩] := by
  decide

/-- **C4 amended**: `makeSnapshots` undoes each commit's operations in the list's
own left-to-right order; in particular, for a commit whose change list is
`[Insert X, Update X]` over a working sequence whose `X` lines are not
placeholders, the `Insert` is undone first — it removes every `X` line — and the
subsequent `Update` finds no line with that id and is a no-op. -/
theorem C4_forward_order
    (c : Commit) (st : St) (p lineId text newText origText : String)
    (h : ∀ r ∈ st.current, (resolve st.store r).id = lineId →
      (resolve st.store r).text ≠ "-1") :
    [Change.insert p lineId text, Change.update lineId newText origText].foldl
        (processChange c) st =
      { st with current :=
          st.current.filter (fun r2 => (resolve st.store r2).id != lineId) } := by
  rw [List.foldl_cons, List.foldl_cons, List.foldl_nil]
  have h1 : processChange c st (.insert p lineId text) =
      { st with current :=
          st.current.filter (fun r2 => (resolve st.store r2).id != lineId) } :=
    undoInsert_no_restore c st lineId text h
  rw [h1]
  show undoUpdate c _ lineId newText origText = _
  apply undoUpdate_absent
  intro r hr
  have hcond := (List.mem_filter.mp hr).2
  rw [bne_iff_ne] at hcond
  exact hcond

/-- Witness for the amended C4: current line `X` (text `"B"`, not a placeholder);
processing `[Insert X, Update X]` left-to-right empties the working sequence. -/
theorem C4_forward_order_witness :
    [Change.insert "_end" "X" "B", Change.update "X" "C" "B"].foldl
        (processChange ⟨5, "u", []⟩) ⟨[⟨"X", "B", "u", 1, 2⟩], [0], []⟩ =
      ⟨[⟨"X", "B", "u", 1, 2⟩], [], []⟩ := by
  have h := C4_forward_order ⟨5, "u", []⟩ ⟨[⟨"X", "B", "u", 1, 2⟩], [0], []⟩
    "_end" "X" "B" "C" "B" (by decide)
  exact h

/-- **C8 counterexample**: undoing a `_delete` whose line id is absent from the
working sequence is *not* a no-op — `makeSnapshots` always pushes a placeholder,
so the snapshot for the next older commit gains the placeholder line (and no
diagnostic exists in the code). -/
theorem C8_cex :
    mapGet (makeSnapshots [] [⟨2000, "u", [.delete "X"]⟩, ⟨1000, "u", []⟩]) 1000 =
      some [⟨"X", "-1", "-1", -1, -1⟩] := by
  decide

/-- **C8 amended**: an `_update` referring to a line id absent from the working
sequence is a no-op and reconstruction continues; a `_delete`, by contrast,
always appends a placeholder, whether or not its id is present, and no
diagnostic is surfaced anywhere in `makeSnapshots`. -/
theorem C8_orphan_update_noop
    (c : Commit) (st : St) (lineId newText origText delId : String)
    (habsent : ∀ r ∈ st.current, (resolve st.store r).id ≠ lineId) :
    processChange c st (.update lineId newText origText) = st ∧
    processChange c st (.delete delId) =
      { st with
        store := st.store ++ [⟨delId, "-1", "-1", -1, -1⟩],
        current := st.current ++ [st.store.length] } :=
  ⟨undoUpdate_absent c st lineId newText origText habsent, rfl⟩

/-- Witness for the amended C8 on a state with an empty working sequence. -/
theorem C8_orphan_update_noop_witness :
    processChange ⟨5, "u", []⟩ ⟨[], [], []⟩ (.update "Y" "a" "b") = ⟨[], [], []⟩ ∧
    processChange ⟨5, "u", []⟩ ⟨[], [], []⟩ (.delete "X") =
      ⟨[⟨"X", "-1", "-1", -1, -1⟩], [0], []⟩ :=
  C8_orphan_update_noop ⟨5, "u", []⟩ ⟨[], [], []⟩ "Y" "a" "b" "X" (by decide)

/-- Reading the resolved output map at a key is reading the reference map and
resolving. -/
theorem mapGet_resolve_map (m : List (Int × List Nat)) (store : List BaseLine)
    (k : Int) :
    mapGet (m.map (fun e => (e.1, e.2.map (resolve store)))) k =
      (mapGet m k).map (fun v => v.map (resolve store)) :=
  mapGet_map_value m (fun v => v.map (resolve store)) k

/-- **C5**: for a non-empty commit list, the snapshot stored at the newest
(first) commit's timestamp has exactly the ids, the texts and the order of the
caller-supplied current lines — provided no input line carries the placeholder
sentinel text `"-1"` (so no in-place placeholder correction can apply to it) and
no other commit repeats the newest commit's timestamp (the spec's data model
assumes timestamps unique; a repeat would overwrite the map entry). -/
theorem C5_newest_snapshot
    (lines : List BaseLine) (c0 : Commit) (rest : List Commit)
    (hl : ∀ l ∈ lines, l.text ≠ "-1")
    (hk : ∀ c ∈ rest, c.created ≠ c0.created) :
    ∃ ls, mapGet (makeSnapshots lines (c0 :: rest)) c0.created = some ls ∧
      ls.map (fun l => l.id) = lines.map (fun l => l.id) ∧
      ls.map (fun l => l.text) = lines.map (fun l => l.text) := by
  have hrun : makeSnapshots lines (c0 :: rest) =
      (runSnapshots lines (c0 :: rest)).snapshots.map
        (fun e => (e.1, e.2.map (resolve (runSnapshots lines (c0 :: rest)).store))) := rfl
  have h1 : mapGet (runSnapshots lines (c0 :: rest)).snapshots c0.created =
      some (List.range lines.length) := by
    show mapGet ((rest.foldl processCommit (processCommit (initSt lines) c0)).snapshots)
      c0.created = _
    rw [mapGet_foldl_processCommit rest _ c0.created hk, processCommit_snapshots]
    exact mapGet_mapSet_self _ _ _
  have hget : mapGet (makeSnapshots lines (c0 :: rest)) c0.created =
      some ((List.range lines.length).map
        (resolve (runSnapshots lines (c0 :: rest)).store)) := by
    rw [hrun, mapGet_resolve_map, h1]
    rfl
  have hpi : PrefixIntact lines (runSnapshots lines (c0 :: rest)).store :=
    foldl_processCommit_prefixIntact (c0 :: rest) (initSt lines) lines hl
      ⟨Nat.le_refl _, fun r _ => ⟨rfl, rfl⟩⟩
  refine ⟨_, hget, ?_, ?_⟩
  · rw [List.map_map]
    have hcong : (List.range lines.length).map
          ((fun l => l.id) ∘ resolve (runSnapshots lines (c0 :: rest)).store) =
        (List.range lines.length).map (fun r => (resolve lines r).id) :=
      List.map_congr_left (fun r hr => (hpi.2 r (List.mem_range.mp hr)).1)
    rw [hcong, show (fun r => (resolve lines r).id) =
        ((fun l => l.id) ∘ fun r => lines.getD r dummyLine) from rfl,
      ← List.map_map, range_map_getD]
  · rw [List.map_map]
    have hcong : (List.range lines.length).map
          ((fun l => l.text) ∘ resolve (runSnapshots lines (c0 :: rest)).store) =
        (List.range lines.length).map (fun r => (resolve lines r).text) :=
      List.map_congr_left (fun r hr => (hpi.2 r (List.mem_range.mp hr)).2)
    rw [hcong, show (fun r => (resolve lines r).text) =
        ((fun l => l.text) ∘ fun r => lines.getD r dummyLine) from rfl,
      ← List.map_map, range_map_getD]

/-- Witness for C5: one current line and a single insert commit. -/
theorem C5_newest_snapshot_witness :
    ∃ ls, mapGet (makeSnapshots [⟨"A", "hello", "u", 1, 1⟩]
        [⟨2000, "u", [.insert "_end" "A" "hello"]⟩]) 2000 = some ls ∧
      ls.map (fun l => l.id) =
        ([⟨"A", "hello", "u", 1, 1⟩] : List BaseLine).map (fun l => l.id) ∧
      ls.map (fun l => l.text) =
        ([⟨"A", "hello", "u", 1, 1⟩] : List BaseLine).map (fun l => l.text) :=
  C5_newest_snapshot [⟨"A", "hello", "u", 1, 1⟩] ⟨2000, "u", [.insert "_end" "A" "hello"]⟩
    [] (by decide) (by decide)

/-- **C6**: `makeSnapshots` returns one map entry per commit, keyed by the
commits' timestamps in order (provided those timestamps are distinct, as the
spec's data model assumes); a commit with an empty change list still emits a
snapshot equal to the unchanged running state; and an empty commit list yields
the empty map whatever the current lines are. -/
theorem C6_one_entry_per_commit (lines : List BaseLine) (commits : List Commit) :
    makeSnapshots lines [] = [] ∧
    ((commits.map Commit.created).Nodup →
      (makeSnapshots lines commits).map Prod.fst = commits.map Commit.created) ∧
    (∀ st : St, ∀ c : Commit, c.changes = [] →
      processCommit st c =
        { st with snapshots := mapSet st.snapshots c.created st.current }) := by
  refine ⟨rfl, ?_, ?_⟩
  · intro hnd
    cases commits with
    | nil => rfl
    | cons c0 rest =>
        have hrun : makeSnapshots lines (c0 :: rest) =
            (runSnapshots lines (c0 :: rest)).snapshots.map
              (fun e => (e.1, e.2.map (resolve (runSnapshots lines (c0 :: rest)).store))) :=
          rfl
        rw [hrun, List.map_map]
        have hkeys := keys_foldl_processCommit (c0 :: rest) (initSt lines)
          (fun c _ => by simp [initSt]) hnd
        rw [show (Prod.fst ∘ fun e : Int × List Nat =>
            (e.1, e.2.map (resolve (runSnapshots lines (c0 :: rest)).store))) =
          (Prod.fst : Int × List Nat → Int) from rfl]
        simpa using hkeys
  · intro st c hc
    unfold processCommit
    rw [hc]
    rfl

/-- Witness for C6: a single commit at timestamp 1 with no changes. -/
theorem C6_one_entry_per_commit_witness :
    (makeSnapshots [] [⟨1, "u", []⟩]).map Prod.fst = [1] :=
  (C6_one_entry_per_commit [] [⟨1, "u", []⟩]).2.1 (by decide)

/-- **C7 counterexample**: a `_delete` for `X` undone while `X` is still in the
working sequence appends a second line with id `X`, so the snapshot at the next
older commit holds two lines with the same id — uniqueness fails. -/
theorem C7_cex :
    ¬ (((mapGet (makeSnapshots [⟨"X", "A", "u", 5, 5⟩]
        [⟨2000, "u", [.delete "X"]⟩, ⟨1000, "u", []⟩]) 1000).getD []).map
        (fun l => l.id)).Nodup := by
  decide

/-- **C7 amended**: in every snapshot returned by `makeSnapshots`, line ids are
unique, provided the input lines have unique ids and no `_delete` is undone
while its id is still present in the working sequence (`deleteClash` is the
instrumented replay detecting exactly that situation; undoing a delete appends
its placeholder without checking for the id, which is the one way a duplicate
can arise). -/
theorem C7_snapshot_ids_nodup (lines : List BaseLine) (commits : List Commit)
    (hnd : (lines.map (fun l => l.id)).Nodup)
    (hclash : deleteClash lines commits = false) :
    ∀ e ∈ makeSnapshots lines commits, (e.2.map (fun l => l.id)).Nodup := by
  intro e he
  cases commits with
  | nil => simp [makeSnapshots] at he
  | cons c0 rest =>
      have hrun : makeSnapshots lines (c0 :: rest) =
          (runSnapshots lines (c0 :: rest)).snapshots.map
            (fun e => (e.1, e.2.map (resolve (runSnapshots lines (c0 :: rest)).store))) :=
        rfl
      rw [hrun] at he
      obtain ⟨e0, he0, rfl⟩ := List.mem_map.mp he
      have hwf := runSnapshots_wf lines (c0 :: rest) hnd hclash
      have hnodup := (hwf.2.2 e0 he0).2
      show ((e0.2.map (resolve (runSnapshots lines (c0 :: rest)).store)).map
        (fun l => l.id)).Nodup
      rw [List.map_map]
      exact hnodup

/-- Witness for the amended C7: one line, one insert commit, no deletes. -/
theorem C7_snapshot_ids_nodup_witness :
    (([⟨"A", "x", "u", 0, 0⟩] : List BaseLine).map (fun l => l.id)).Nodup :=
  C7_snapshot_ids_nodup [⟨"A", "x", "u", 0, 0⟩] [⟨5, "u", [.insert "_end" "A" "x"]⟩]
    (by decide) (by decide) (5, [⟨"A", "x", "u", 0, 0⟩]) (by decide)

/-- **C9 counterexample**: with commits at 1000 and 999, the derived range is
`[1000, 999]` — JavaScript's default sort compares the decimal strings, and
`"1000" < "999"` — so the range is not sorted ascending in numeric order. -/
theorem C9_cex :
    convertRange [⟨1000, "u", [.insert "_end" "A" "x"]⟩,
        ⟨999, "u", [.update "A" "y" "x"]⟩] = [1000, 999] ∧
    ¬ List.Sorted (fun a b : Int => a < b)
        (convertRange [⟨1000, "u", [.insert "_end" "A" "x"]⟩,
          ⟨999, "u", [.update "A" "y" "x"]⟩]) := by
  decide

/-- **C9 amended**: the derived range is duplicate-free and sorted ascending in
the lexicographic order of the timestamps' decimal string representations (the
order JavaScript's comparator-less `sort` uses); this coincides with numeric
order only when the decimal representations have equal length (e.g. all
ten-digit Unix times). -/
theorem C9_range_string_sorted (commits : List Commit) :
    List.Sorted (fun a b : Int => jsDefaultLe a b = true) (convertRange commits) ∧
    (convertRange commits).Nodup := by
  constructor
  · letI : IsTotal Int (fun a b : Int => jsDefaultLe a b = true) :=
      ⟨fun a b => lexLe_total (jsStrCode a) (jsStrCode b)⟩
    letI : IsTrans Int (fun a b : Int => jsDefaultLe a b = true) :=
      ⟨fun a b c => lexLe_trans (jsStrCode a) (jsStrCode b) (jsStrCode c)⟩
    exact List.sorted_insertionSort _ _
  · exact (List.Perm.nodup_iff (List.perm_insertionSort _ _)).mpr (jsSetDedup_nodup _)
